import Mathlib

/-!
Shallow embedding of the retrieval core of the `teams-agent-portico`
repository (`src/app/myDataSource.ts` and `src/app/sharePointDataSource.ts`).

Strings are modelled as `List Char`.  JavaScript string primitives used by the
source (`trim`, `toLowerCase`, `split(/\n\n+/)`, `split(/\s+/)`, the
`[^\w\s]` replacement, whole-word regex match counting and `includes`) are
modelled character by character on the ASCII range, which is the range the
corpus and queries use (the spec's §1 restricts scope to "simple ASCII-ish
word splitting").  JavaScript numbers appearing in the scoring path
(`Math.log`, `Math.sqrt`, score arithmetic) are modelled as real numbers.
-/

namespace Portico

/-- JavaScript whitespace as matched by `\s` / trimmed by `String.trim`
(ASCII part): space, tab, newline, carriage return, vertical tab, form feed. -/
def jsWs (c : Char) : Bool :=
  c == ' ' || c == '\t' || c == '\n' || c == '\r' || c == '\x0b' || c == '\x0c'

/-- JavaScript word character as matched by `\w`: ASCII letters, digits, `_`. -/
def isWordChar (c : Char) : Bool :=
  c.isAlphanum || c == '_'

/-- Model of JavaScript `String.prototype.trim`: drop leading and trailing
whitespace. -/
def trim (s : List Char) : List Char :=
  ((s.dropWhile jsWs).reverse.dropWhile jsWs).reverse

/-- A blank-line separator (the `"\n\n"` used to join paragraphs). -/
def nl2 : List Char := ['\n', '\n']

/-- Worker for `splitParas`: a one-pass scan splitting on runs of two or
more newlines, the semantics of JavaScript `text.split(/\n\n+/)`.  `cur`
holds the current segment reversed; `pend` counts newlines seen since the
last non-newline character (a run of `≥ 2` is a separator, a single one
belongs to the segment). -/
def splitParasGo (cur : List Char) (pend : ℕ) : List Char → List (List Char)
  | [] =>
      if 2 ≤ pend then [cur.reverse, []]
      else [(List.replicate pend '\n' ++ cur).reverse]
  | c :: t =>
      if c = '\n' then splitParasGo cur (pend + 1) t
      else if 2 ≤ pend then cur.reverse :: splitParasGo [c] 0 t
      else splitParasGo (c :: (List.replicate pend '\n' ++ cur)) 0 t

/-- Model of `text.split(/\n\n+/)` from `splitIntoChunks`. -/
def splitParas (s : List Char) : List (List Char) :=
  splitParasGo [] 0 s

/-- Worker for `splitWs`: a one-pass scan splitting on runs of one or more
whitespace characters, the semantics of JavaScript `s.split(/\s+/)`.  `cur`
holds the current segment reversed; `pend` records whether the scan is
inside a whitespace run. -/
def splitWsGo (cur : List Char) (pend : Bool) : List Char → List (List Char)
  | [] => if pend then [cur.reverse, []] else [cur.reverse]
  | c :: t =>
      if jsWs c then splitWsGo cur true t
      else if pend then cur.reverse :: splitWsGo [c] false t
      else splitWsGo (c :: cur) false t

/-- Model of `s.split(/\s+/)` from `extractKeywords`. -/
def splitWs (s : List Char) : List (List Char) :=
  splitWsGo [] false s

/-- The approximate token count of `splitIntoChunks`:
`Math.ceil(s.length / 4)`. -/
def tokenApprox (s : List Char) : ℕ :=
  (s.length + 3) / 4

/-- Joining a list of strings with blank-line (`"\n\n"`) separators. -/
def joinG : List (List Char) → List Char
  | [] => []
  | [p] => p
  | p :: q :: rest => p ++ nl2 ++ joinG (q :: rest)

/-- Joining a list of strings with single-space separators (used to feed the
output of `extractKeywords` back into it). -/
def joinSp : List (List Char) → List Char
  | [] => []
  | [p] => p
  | p :: q :: rest => p ++ [' '] ++ joinSp (q :: rest)

/-- The `STOP_WORDS` set of `myDataSource.ts`, verbatim. -/
def STOP_WORDS : List (List Char) :=
  (["a", "an", "and", "are", "as", "at", "be", "by", "for", "from",
    "has", "he", "in", "is", "it", "its", "of", "on", "that", "the",
    "to", "was", "were", "will", "with", "what", "how", "why", "when",
    "where", "who", "which", "can", "do", "does", "did", "have", "had",
    "me", "my", "about", "tell", "explain", "describe", "i", "you", "your"]).map
    String.data

/-- The `[^\w\s]` → `' '` replacement step of `extractKeywords`. -/
def replaceNonWord (c : Char) : Char :=
  if !(isWordChar c) && !(jsWs c) then ' ' else c

/-- `extractKeywords` from `myDataSource.ts`: lowercase, replace every
non-word non-whitespace character by a space, split on whitespace runs, keep
words of length `> 2` that are not stop words. -/
def extractKeywords (query : List Char) : List (List Char) :=
  (splitWs ((query.map Char.toLower).map replaceNonWord)).filter
    (fun word => decide (2 < word.length) && !decide (word ∈ STOP_WORDS))

/-- Whether the whole-word regex `\b<kw>\b` matches `content` at position
`i`: the keyword occurs there and is not adjacent to a word character on
either side.  For keywords made of word characters (the only keywords the
program builds) this is exactly the JavaScript `\b` semantics. -/
def matchAt (content kw : List Char) (i : ℕ) : Bool :=
  decide ((content.drop i).take kw.length = kw)
    && (decide (i = 0) || !isWordChar (content.getD (i - 1) ' '))
    && (decide (content.length ≤ i + kw.length)
          || !isWordChar (content.getD (i + kw.length) ' '))

/-- Number of matches of `contentLower.match(new RegExp('\\b'+kw+'\\b','gi'))`:
for a non-empty all-word-character keyword, whole-word matches never overlap,
so the global scan finds exactly the set of matching positions. -/
def countMatches (content kw : List Char) : ℕ :=
  (List.range content.length).countP (matchAt content kw)

/-- One step of the scoring loop of `calculateScore`: accumulates the raw
score and the matched-keyword counter. -/
noncomputable def scoreStep (contentLower : List Char) (acc : ℝ × ℕ)
    (kw : List Char) : ℝ × ℕ :=
  let m := countMatches contentLower kw
  if m ≠ 0 then (acc.1 + Real.log (1 + (m : ℝ)), acc.2 + 1) else acc

/-- `calculateScore` from `myDataSource.ts`. -/
noncomputable def calculateScore (content : List Char)
    (keywords : List (List Char)) : ℝ :=
  match keywords with
  | [] => 0
  | _ :: _ =>
    let contentLower := content.map Char.toLower
    let acc := keywords.foldl (scoreStep contentLower) (0, 0)
    (acc.1 * ((acc.2 : ℝ) / (keywords.length : ℝ)))
      / Real.sqrt (keywords.length : ℝ)

/-- The scoring formula as the specification words it: the sum, over keywords
with at least one whole-word match, of `ln(1 + occurrences)`, multiplied by
the matched fraction of the keyword list and divided by the square root of
the keyword count.  Stated from the spec, to be compared with
`calculateScore`. -/
noncomputable def scoreSpec (content : List Char)
    (keywords : List (List Char)) : ℝ :=
  let cl := content.map Char.toLower
  (((keywords.filter fun k => decide (countMatches cl k ≠ 0)).map
      fun k => Real.log (1 + (countMatches cl k : ℝ))).sum
    * ((keywords.countP fun k => decide (countMatches cl k ≠ 0) : ℝ)
        / (keywords.length : ℝ)))
    / Real.sqrt (keywords.length : ℝ)

/-- A loaded document: trimmed file content plus its citation (file name). -/
structure Document where
  content : List Char
  citation : List Char
  deriving DecidableEq

/-- A chunk of a document (`DocumentChunk` in the source). -/
structure DocumentChunk where
  content : List Char
  citation : List Char
  chunkIndex : ℕ
  totalChunks : ℕ
  deriving DecidableEq

/-- Retrieval configuration (`RetrievalConfig` in the source). -/
structure RetrievalConfig where
  maxChunkSize : ℕ
  topK : ℕ
  minScore : ℝ

/-- A search result (`SearchResult` in the source). -/
structure SearchResult where
  content : List Char
  citation : List Char
  score : ℝ

/-- Rendered context (`RenderedContext` in the source). -/
structure RenderedContext where
  content : List Char
  sources : List (List Char)
  deriving DecidableEq

/-- The private state of a `MyDataSource` instance: `_data`, `_chunks`,
`_config`. -/
structure DataSourceState where
  data : List Document
  chunks : List DocumentChunk
  config : RetrievalConfig

/-- The paragraph-accumulation loop of `splitIntoChunks`: walks the
paragraphs, keeping the accumulating current chunk and the list of flushed
chunks, exactly as the `for` loop of the source.  Returns the flushed chunks
and the final current chunk. -/
def chunkLoop (maxSize : ℕ) :
    List (List Char) → List Char → List (List Char) →
      List (List Char) × List Char
  | [], cur, chunks => (chunks, cur)
  | p :: rest, cur, chunks =>
    let tp := trim p
    if tp = [] then chunkLoop maxSize rest cur chunks
    else if maxSize < tokenApprox cur + tokenApprox tp ∧ cur ≠ [] then
      chunkLoop maxSize rest tp (chunks ++ [trim cur])
    else
      chunkLoop maxSize rest (cur ++ (if cur = [] then [] else nl2) ++ tp)
        chunks

/-- `splitIntoChunks` from `myDataSource.ts`: split into paragraphs, run the
accumulation loop, flush the remaining chunk if its trim is non-empty, and
fall back to the single untrimmed text when no chunk was produced. -/
def splitIntoChunks (text : List Char) (maxSize : ℕ) : List (List Char) :=
  let r := chunkLoop maxSize (splitParas text) [] []
  let chunks := if trim r.2 ≠ [] then r.1 ++ [trim r.2] else r.1
  if chunks ≠ [] then chunks else [text]

/-- The trimmed non-empty paragraphs of a text, in order: the sequence the
loop of `splitIntoChunks` actually processes. -/
def paragraphsOf (text : List Char) : List (List Char) :=
  ((splitParas text).map trim).filter (· ≠ [])

/-- `chunkDocuments` from `myDataSource.ts`: split every document and
enumerate the resulting chunks with `chunkIndex` / `totalChunks`. -/
def chunkDocuments (documents : List Document) (maxChunkSize : ℕ) :
    List DocumentChunk :=
  documents.foldl
    (fun chunks doc =>
      let docChunks := splitIntoChunks doc.content maxChunkSize
      chunks ++ docChunks.enum.map
        (fun ic => ⟨ic.2, doc.citation, ic.1, docChunks.length⟩))
    []

/-- The scored chunk list built inside `search`: every cached chunk paired
with its relevance score against the keywords. -/
noncomputable def scoredOf (st : DataSourceState)
    (keywords : List (List Char)) : List (DocumentChunk × ℝ) :=
  st.chunks.map fun c => (c, calculateScore c.content keywords)

/-- The scored chunks surviving the `minScore` filter of `search`. -/
noncomputable def filteredOf (st : DataSourceState)
    (keywords : List (List Char)) : List (DocumentChunk × ℝ) :=
  (scoredOf st keywords).filter fun sc => decide (st.config.minScore ≤ sc.2)

/-- The comparator of `search`'s sort, `(a, b) => b.score - a.score`:
descending by score, stable on ties. -/
noncomputable def scoreDesc (a b : DocumentChunk × ℝ) : Bool :=
  decide (b.2 ≤ a.2)

/-- `search` from `myDataSource.ts`. -/
noncomputable def search (st : DataSourceState) (query : List Char) :
    List SearchResult :=
  if query = [] then []
  else
    match extractKeywords query with
    | [] =>
      match st.data with
      | [] => []
      | d :: _ => [⟨d.content, d.citation, 1 / 2⟩]
    | kw :: kws =>
      (((filteredOf st (kw :: kws)).mergeSort scoreDesc).take
          st.config.topK).map
        fun sc => ⟨sc.1.content, sc.1.citation, sc.2⟩

/-- The ranking contract of `search`: results sorted by non-increasing
score and never more than `topK` of them; and, for queries with at least one
extracted keyword, every returned score is at least `minScore` and the sort
is stable — for every score value, the sorted scored chunks restricted to
that value coincide with the filtered scored chunks restricted to it, i.e.
original chunk order is preserved among equal scores. -/
def searchContract (st : DataSourceState) (q : List Char) : Prop :=
  ((search st q).Pairwise (fun r1 r2 => r2.score ≤ r1.score) ∧
    (search st q).length ≤ st.config.topK) ∧
  (extractKeywords q ≠ [] →
    (∀ r ∈ search st q, st.config.minScore ≤ r.score) ∧
    ∀ s : ℝ,
      ((filteredOf st (extractKeywords q)).mergeSort scoreDesc).filter
          (fun sc => decide (sc.2 = s))
        = (filteredOf st (extractKeywords q)).filter
          (fun sc => decide (sc.2 = s)))

/-- `formatDocument` from `myDataSource.ts`. -/
def formatDocument (content citation : List Char) : List Char :=
  "<context source=\"".data ++ citation ++ "\">\n".data
    ++ content ++ "\n</context>".data

/-- `renderContext` from `myDataSource.ts`: empty search gives empty context;
otherwise every result is formatted, each block followed by a blank line, and
the accumulated text is trimmed. -/
noncomputable def renderContext (st : DataSourceState) (query : List Char) :
    RenderedContext :=
  match search st query with
  | [] => ⟨[], []⟩
  | r :: rs =>
    ⟨trim ((r :: rs).foldl
        (fun acc res => acc ++ formatDocument res.content res.citation ++ nl2)
        []),
      (r :: rs).map (·.citation)⟩

/-- `init` from `myDataSource.ts`, parametrised by the filesystem outcome:
`none` models a missing data directory (the `existsSync` guard fails and the
method returns early, leaving the state untouched); `some files` models a
directory listing, each file paired with `some content` for a successful read
or `none` for a read error (which the source turns into empty content, then
filters out). -/
def initImpl (listing : Option (List (List Char × Option (List Char))))
    (st : DataSourceState) : DataSourceState :=
  match listing with
  | none => st
  | some files =>
    let newData :=
      (files.map fun f =>
        Document.mk (match f.2 with | some c => trim c | none => []) f.1).filter
        (fun d => d.content ≠ [])
    ⟨newData, chunkDocuments newData st.config.maxChunkSize, st.config⟩

/-- States of a `MyDataSource` reachable from construction (empty stores) by
any sequence of `init` calls with arbitrary filesystem outcomes. -/
inductive Reachable : DataSourceState → Prop
  | construct (cfg : RetrievalConfig) : Reachable ⟨[], [], cfg⟩
  | step (listing : Option (List (List Char × Option (List Char))))
      {st : DataSourceState} : Reachable st → Reachable (initImpl listing st)

/-- The chunk-store shape established by (re-)initialization: the store is
exactly the per-document enumeration of `splitIntoChunks`, with `chunkIndex`
running from 0 in order and `totalChunks` the number of that document's
chunks; hence every chunk satisfies `0 ≤ chunkIndex < totalChunks`. -/
def chunkStoreInvariant (st : DataSourceState) : Prop :=
  st.chunks = st.data.flatMap (fun d =>
    (splitIntoChunks d.content st.config.maxChunkSize).enum.map
      (fun ic => ⟨ic.2, d.citation, ic.1,
        (splitIntoChunks d.content st.config.maxChunkSize).length⟩)) ∧
  ∀ ch ∈ st.chunks, 0 ≤ ch.chunkIndex ∧ ch.chunkIndex < ch.totalChunks

/-- A SharePoint document (`SharePointDocument` in the source; the
`lastModified` date plays no role in the modelled operations and is
omitted). -/
structure SharePointDocument where
  id : List Char
  name : List Char
  webUrl : List Char
  content : List Char
  deriving DecidableEq

/-- The private state of a `SharePointDataSource` instance. -/
structure SharePointState where
  documents : List SharePointDocument
  initialized : Bool
  deriving DecidableEq

/-- Model of JavaScript `hay.includes(needle)`. -/
def jsIncludes (hay needle : List Char) : Bool :=
  (List.range (hay.length + 1)).any
    (fun i => decide ((hay.drop i).take needle.length = needle))

/-- `SharePointDataSource.init`, parametrised by the enabled flag: when
disabled it returns early; when enabled the document fetch is an
unimplemented stub (a TODO comment), so only `_initialized` is set and no
document is ever appended. -/
def spInit (enabled : Bool) (st : SharePointState) : SharePointState :=
  if enabled then ⟨st.documents, true⟩ else st

/-- `SharePointDataSource.search`: empty unless initialized with documents;
otherwise a case-insensitive substring filter with constant score `1.0`. -/
def spSearch (st : SharePointState) (query : List Char) : List SearchResult :=
  if st.initialized = false ∨ st.documents = [] then []
  else
    (st.documents.filter fun d =>
      jsIncludes (d.content.map Char.toLower) (query.map Char.toLower)).map
      fun d => ⟨d.content, d.name, 1⟩

/-- `SharePointDataSource.renderContext`. -/
def spRenderContext (st : SharePointState) (query : List Char) :
    RenderedContext :=
  match spSearch st query with
  | [] => ⟨[], []⟩
  | r :: rs =>
    ⟨trim ((r :: rs).foldl
        (fun acc res => acc ++ formatDocument res.content res.citation ++ nl2)
        []),
      (r :: rs).map (·.citation)⟩

/-- States of a `SharePointDataSource` reachable from construction by any
sequence of `init` calls. -/
inductive SPReachable : SharePointState → Prop
  | construct : SPReachable ⟨[], false⟩
  | step (enabled : Bool) {st : SharePointState} :
      SPReachable st → SPReachable (spInit enabled st)

/-! ## Lemmas about `trim` and blank-line joining -/

theorem dropWhile_eq_self_of_head {p : Char → Bool} {l : List Char}
    (h : ∀ c, l.head? = some c → p c = false) : l.dropWhile p = l := by
  cases l with
  | nil => rfl
  | cons c t => simp [List.dropWhile_cons, h c rfl]

theorem head_dropWhile_false {p : Char → Bool} :
    ∀ {l : List Char} {c : Char}, (l.dropWhile p).head? = some c → p c = false := by
  intro l
  induction l with
  | nil => intro c h; simp at h
  | cons a t ih =>
    intro c h
    rw [List.dropWhile_cons] at h
    by_cases ha : p a
    · rw [if_pos ha] at h
      exact ih h
    · rw [if_neg ha] at h
      simp at h
      rw [h] at ha
      simpa using ha

theorem getLast_dropWhile_of_ne {p : Char → Bool} :
    ∀ {l : List Char}, l.dropWhile p ≠ [] →
      (l.dropWhile p).getLast? = l.getLast? := by
  intro l
  induction l with
  | nil => intro h; simp at h
  | cons a t ih =>
    intro h
    rw [List.dropWhile_cons] at h ⊢
    by_cases ha : p a
    · rw [if_pos ha] at h ⊢
      have ht : t ≠ [] := by
        intro he
        rw [he] at h
        simp at h
      rw [ih h]
      cases t with
      | nil => exact absurd rfl ht
      | cons b u => rw [List.getLast?_cons_cons]
    · rw [if_neg ha]

theorem trim_eq_self_of_ends {l : List Char}
    (h1 : ∀ c, l.head? = some c → jsWs c = false)
    (h2 : ∀ c, l.getLast? = some c → jsWs c = false) : trim l = l := by
  unfold trim
  rw [dropWhile_eq_self_of_head h1]
  rw [dropWhile_eq_self_of_head (by
    intro c hc
    rw [List.head?_reverse] at hc
    exact h2 c hc)]
  exact List.reverse_reverse l

theorem head_trim_false {l : List Char} {c : Char}
    (h : (trim l).head? = some c) : jsWs c = false := by
  unfold trim at h
  rw [List.head?_reverse] at h
  have hne : (l.dropWhile jsWs).reverse.dropWhile jsWs ≠ [] := by
    intro he
    rw [he] at h
    simp at h
  rw [getLast_dropWhile_of_ne hne, List.getLast?_reverse] at h
  exact head_dropWhile_false h

theorem getLast_trim_false {l : List Char} {c : Char}
    (h : (trim l).getLast? = some c) : jsWs c = false := by
  unfold trim at h
  rw [List.getLast?_reverse] at h
  exact head_dropWhile_false h

theorem trim_trim (l : List Char) : trim (trim l) = trim l :=
  trim_eq_self_of_ends (fun _ h => head_trim_false h)
    (fun _ h => getLast_trim_false h)

theorem joinG_nil : joinG [] = [] := rfl

theorem joinG_singleton (p : List Char) : joinG [p] = p := rfl

theorem joinG_cons_cons (p q : List Char) (rest : List (List Char)) :
    joinG (p :: q :: rest) = p ++ nl2 ++ joinG (q :: rest) := rfl

theorem head?_joinG {p : List Char} (rest : List (List Char)) (hp : p ≠ []) :
    (joinG (p :: rest)).head? = p.head? := by
  cases rest with
  | nil => rfl
  | cons q r =>
    rw [joinG_cons_cons, List.append_assoc, List.head?_append]
    cases p with
    | nil => exact absurd rfl hp
    | cons c t => rfl

theorem joinG_ne_nil {group : List (List Char)} (hg : group ≠ [])
    (h : ∀ p ∈ group, p ≠ []) : joinG group ≠ [] := by
  cases group with
  | nil => exact absurd rfl hg
  | cons p rest =>
    intro he
    have hp : p ≠ [] := h p (by simp)
    have hh := head?_joinG rest hp
    rw [he] at hh
    cases p with
    | nil => exact hp rfl
    | cons c t => simp at hh

theorem flatten_ne_nil {α : Type} {gs : List (List α)} {g : List α}
    {rest : List (List α)} (he : gs = g :: rest) (hg : g ≠ []) :
    gs.flatten ≠ [] := by
  subst he
  cases g with
  | nil => exact absurd rfl hg
  | cons p r => simp

theorem getLast?_joinG :
    ∀ {group : List (List Char)}, (∀ p ∈ group, p ≠ []) → group ≠ [] →
      (joinG group).getLast? = group.flatten.getLast? := by
  intro group
  induction group with
  | nil => intro _ hg; exact absurd rfl hg
  | cons p rest ih =>
    intro h _
    cases rest with
    | nil => simp [joinG_singleton]
    | cons q r =>
      rw [joinG_cons_cons]
      have hq : joinG (q :: r) ≠ [] :=
        joinG_ne_nil (by simp) (fun x hx => h x (List.mem_cons_of_mem p hx))
      rw [List.append_assoc,
        List.getLast?_append_of_ne_nil _ (by simp [hq]),
        List.getLast?_append_of_ne_nil _ hq,
        ih (fun x hx => h x (List.mem_cons_of_mem p hx)) (by simp)]
      rw [show (p :: q :: r).flatten = p ++ (q :: r).flatten from by simp]
      rw [List.getLast?_append_of_ne_nil _
        (flatten_ne_nil rfl (h q (by simp)))]

theorem getLast?_flatten_mem :
    ∀ {gs : List (List Char)}, (∀ p ∈ gs, p ≠ []) → gs ≠ [] →
      ∃ p ∈ gs, gs.flatten.getLast? = p.getLast? := by
  intro gs
  induction gs with
  | nil => intro _ h; exact absurd rfl h
  | cons p rest ih =>
    intro h _
    cases rest with
    | nil => exact ⟨p, by simp, by simp⟩
    | cons q r =>
      obtain ⟨x, hx, he⟩ :=
        ih (fun y hy => h y (List.mem_cons_of_mem p hy)) (by simp)
      refine ⟨x, List.mem_cons_of_mem p hx, ?_⟩
      rw [show (p :: q :: r).flatten = p ++ (q :: r).flatten from by simp]
      rw [List.getLast?_append_of_ne_nil _
        (flatten_ne_nil rfl (h q (by simp)))]
      exact he

theorem trim_joinG {group : List (List Char)} (hg : group ≠ [])
    (h : ∀ p ∈ group, p ≠ [] ∧ trim p = p) : trim (joinG group) = joinG group := by
  cases group with
  | nil => exact absurd rfl hg
  | cons p rest =>
    apply trim_eq_self_of_ends
    · intro c hc
      rw [head?_joinG rest (h p (by simp)).1] at hc
      have hp := (h p (by simp)).2
      rw [← hp] at hc
      exact head_trim_false hc
    · intro c hc
      rw [getLast?_joinG (fun x hx => (h x hx).1) (by simp)] at hc
      obtain ⟨x, hx, he⟩ :=
        @getLast?_flatten_mem (p :: rest) (fun y hy => (h y hy).1) (by simp)
      rw [he] at hc
      rw [← (h x hx).2] at hc
      exact getLast_trim_false hc

theorem joinG_append {g1 g2 : List (List Char)} (h1 : g1 ≠ []) (h2 : g2 ≠ []) :
    joinG (g1 ++ g2) = joinG g1 ++ nl2 ++ joinG g2 := by
  induction g1 with
  | nil => exact absurd rfl h1
  | cons p rest ih =>
    cases rest with
    | nil =>
      cases g2 with
      | nil => exact absurd rfl h2
      | cons q r => simp [joinG_singleton, joinG_cons_cons]
    | cons q r =>
      have ihh := ih (by simp)
      rw [show (p :: q :: r) ++ g2 = p :: ((q :: r) ++ g2) from rfl]
      rw [show (q :: r) ++ g2 = q :: (r ++ g2) from rfl, joinG_cons_cons]
      rw [show q :: (r ++ g2) = (q :: r) ++ g2 from rfl, ihh, joinG_cons_cons]
      simp [List.append_assoc]

theorem joinG_snoc {g : List (List Char)} (p : List Char) (h : g ≠ []) :
    joinG (g ++ [p]) = joinG g ++ nl2 ++ p := by
  rw [joinG_append h (by simp), joinG_singleton]

theorem joinG_flatten {gs : List (List (List Char))}
    (h : ∀ g ∈ gs, g ≠ []) : joinG (gs.map joinG) = joinG gs.flatten := by
  induction gs with
  | nil => rfl
  | cons g rest ih =>
    cases rest with
    | nil => simp [joinG_singleton]
    | cons g' r =>
      rw [List.map_cons, List.map_cons, joinG_cons_cons, ← List.map_cons]
      rw [ih (fun x hx => h x (List.mem_cons_of_mem g hx))]
      rw [show (g :: g' :: r).flatten = g ++ (g' :: r).flatten from by simp]
      rw [joinG_append (h g (by simp)) (flatten_ne_nil rfl (h g' (by simp)))]

/-! ## The chunk loop: paragraph partition invariant -/

/-- A "good paragraph": non-empty and fixed by `trim` — the shape of every
trimmed non-empty paragraph the chunk loop processes. -/
def goodPara (p : List Char) : Prop := p ≠ [] ∧ trim p = p

/-- A "good group": a non-empty list of good paragraphs. -/
def goodGroup (g : List (List Char)) : Prop := g ≠ [] ∧ ∀ p ∈ g, goodPara p

theorem chunkLoop_cons_skip {maxSize : ℕ} {p : List Char}
    {rest : List (List Char)} {cur : List Char} {chunks : List (List Char)}
    (h : trim p = []) :
    chunkLoop maxSize (p :: rest) cur chunks
      = chunkLoop maxSize rest cur chunks := by
  simp only [chunkLoop]
  rw [if_pos h]

theorem chunkLoop_cons_flush {maxSize : ℕ} {p : List Char}
    {rest : List (List Char)} {cur : List Char} {chunks : List (List Char)}
    (h1 : trim p ≠ [])
    (h2 : maxSize < tokenApprox cur + tokenApprox (trim p) ∧ cur ≠ []) :
    chunkLoop maxSize (p :: rest) cur chunks
      = chunkLoop maxSize rest (trim p) (chunks ++ [trim cur]) := by
  simp only [chunkLoop]
  rw [if_neg h1, if_pos h2]

theorem chunkLoop_cons_append {maxSize : ℕ} {p : List Char}
    {rest : List (List Char)} {cur : List Char} {chunks : List (List Char)}
    (h1 : trim p ≠ [])
    (h2 : ¬(maxSize < tokenApprox cur + tokenApprox (trim p) ∧ cur ≠ [])) :
    chunkLoop maxSize (p :: rest) cur chunks
      = chunkLoop maxSize rest
          (cur ++ (if cur = [] then [] else nl2) ++ trim p) chunks := by
  simp only [chunkLoop]
  rw [if_neg h1, if_neg h2]

theorem chunkLoop_all_blank {maxSize : ℕ} :
    ∀ {paras : List (List Char)} {cur : List Char} {chunks : List (List Char)},
      (∀ p ∈ paras, trim p = []) →
      chunkLoop maxSize paras cur chunks = (chunks, cur) := by
  intro paras
  induction paras with
  | nil => intro _ _ _; rfl
  | cons p rest ih =>
    intro cur chunks h
    rw [chunkLoop_cons_skip (h p (by simp))]
    exact ih (fun q hq => h q (List.mem_cons_of_mem p hq))

/-- The central invariant of the paragraph-accumulation loop: starting from a
current chunk that joins a good paragraph group `gc` and flushed chunks that
join the good groups `gs`, the loop returns joins of good groups whose
concatenation extends `gs.flatten ++ gc` by exactly the trimmed non-empty
remaining paragraphs, in order. -/
theorem chunkLoop_partition (maxSize : ℕ) :
    ∀ (paras : List (List Char)) (gc : List (List Char))
      (gs : List (List (List Char))),
      (∀ g ∈ gs, goodGroup g) → (∀ p ∈ gc, goodPara p) →
      ∃ (gs' : List (List (List Char))) (gc' : List (List Char)),
        chunkLoop maxSize paras (joinG gc) (gs.map joinG)
          = (gs'.map joinG, joinG gc') ∧
        (∀ g ∈ gs', goodGroup g) ∧ (∀ p ∈ gc', goodPara p) ∧
        gs'.flatten ++ gc'
          = gs.flatten ++ gc ++ (paras.map trim).filter (· ≠ []) := by
  intro paras
  induction paras with
  | nil =>
    intro gc gs hgs hgc
    exact ⟨gs, gc, rfl, hgs, hgc, by simp⟩
  | cons p rest ih =>
    intro gc gs hgs hgc
    by_cases htp : trim p = []
    · obtain ⟨gs', gc', he, h1, h2, h3⟩ := ih gc gs hgs hgc
      refine ⟨gs', gc', ?_, h1, h2, ?_⟩
      · rw [chunkLoop_cons_skip htp]
        exact he
      · rw [h3]
        simp [List.filter_cons, htp]
    · by_cases hcond :
        maxSize < tokenApprox (joinG gc) + tokenApprox (trim p) ∧ joinG gc ≠ []
      · have hgcne : gc ≠ [] := by
          intro h0
          rw [h0] at hcond
          exact hcond.2 rfl
        have htj : trim (joinG gc) = joinG gc :=
          trim_joinG hgcne hgc
        obtain ⟨gs', gc', he, h1, h2, h3⟩ :=
          ih [trim p] (gs ++ [gc])
            (by
              intro g hg
              rcases List.mem_append.1 hg with hg | hg
              · exact hgs g hg
              · rcases List.mem_singleton.1 hg with rfl
                exact ⟨hgcne, hgc⟩)
            (by
              intro q hq
              rcases List.mem_singleton.1 hq with rfl
              exact ⟨htp, trim_trim p⟩)
        refine ⟨gs', gc', ?_, h1, h2, ?_⟩
        · rw [chunkLoop_cons_flush htp hcond, htj]
          rw [show joinG gc :: [] = [joinG gc] from rfl] at *
          rw [show (gs.map joinG) ++ [joinG gc] = (gs ++ [gc]).map joinG from by
            rw [List.map_append]; rfl] at *
          rw [show trim p = joinG [trim p] from rfl]
          exact he
        · rw [h3]
          simp [List.filter_cons, htp, List.append_assoc]
      · have hcur :
            joinG gc ++ (if joinG gc = [] then [] else nl2) ++ trim p
              = joinG (gc ++ [trim p]) := by
          by_cases hgc0 : gc = []
          · subst hgc0
            simp [joinG_nil, joinG_singleton]
          · have : joinG gc ≠ [] :=
              joinG_ne_nil hgc0 (fun q hq => (hgc q hq).1)
            rw [if_neg this, joinG_snoc _ hgc0]
        obtain ⟨gs', gc', he, h1, h2, h3⟩ :=
          ih (gc ++ [trim p]) gs hgs
            (by
              intro q hq
              rcases List.mem_append.1 hq with hq | hq
              · exact hgc q hq
              · rcases List.mem_singleton.1 hq with rfl
                exact ⟨htp, trim_trim p⟩)
        refine ⟨gs', gc', ?_, h1, h2, ?_⟩
        · rw [chunkLoop_cons_append htp hcond, hcur]
          exact he
        · rw [h3]
          simp [List.filter_cons, htp, List.append_assoc]

/-- `splitIntoChunks` on a text with at least one non-blank paragraph:
the chunks are exactly the blank-line joins of a partition of the trimmed
non-empty paragraphs into consecutive non-empty groups. -/
theorem splitIntoChunks_partition (text : List Char) (maxSize : ℕ)
    (hpar : paragraphsOf text ≠ []) :
    ∃ gs, gs ≠ [] ∧ (∀ g ∈ gs, goodGroup g) ∧
      gs.flatten = paragraphsOf text ∧
      splitIntoChunks text maxSize = gs.map joinG := by
  obtain ⟨gs', gc', he, h1, h2, h3⟩ :=
    chunkLoop_partition maxSize (splitParas text) [] []
      (by intro g hg; simp at hg) (by intro p hp; simp at hp)
  simp only [List.map_nil, joinG_nil, List.flatten_nil, List.nil_append] at he h3
  have h3' : gs'.flatten ++ gc' = paragraphsOf text := h3
  cases hgc' : gc' with
  | nil =>
    subst hgc'
    rw [List.append_nil] at h3'
    have hgs'ne : gs' ≠ [] := by
      intro h0
      rw [h0] at h3'
      simp at h3'
      exact hpar h3'
    refine ⟨gs', hgs'ne, h1, h3', ?_⟩
    rw [joinG_nil] at he
    simp only [splitIntoChunks, he]
    have e1 : (if trim ([] : List Char) ≠ [] then
        gs'.map joinG ++ [trim ([] : List Char)] else gs'.map joinG)
          = gs'.map joinG := by
      rw [if_neg]
      simp [trim]
    rw [e1]
    rw [if_pos (by
      intro h0
      exact hgs'ne (List.map_eq_nil_iff.1 h0))]
  | cons q r =>
    subst hgc'
    have hgcne : (q :: r) ≠ [] := by simp
    have hjne : joinG (q :: r) ≠ [] :=
      joinG_ne_nil hgcne (fun x hx => (h2 x hx).1)
    have htj : trim (joinG (q :: r)) = joinG (q :: r) :=
      trim_joinG hgcne h2
    refine ⟨gs' ++ [q :: r], by simp, ?_, ?_, ?_⟩
    · intro g hg
      rcases List.mem_append.1 hg with hg | hg
      · exact h1 g hg
      · rcases List.mem_singleton.1 hg with rfl
        exact ⟨hgcne, h2⟩
    · rw [List.flatten_append]
      simpa using h3'
    · simp only [splitIntoChunks, he]
      rw [htj]
      rw [if_pos hjne]
      rw [if_pos (by simp)]
      rw [List.map_append]
      rfl

/-! ## Claims C3 and C6: chunking reconstruction and the verbatim fallback -/

/-- C3 (amended): for every input text with at least one non-whitespace
character (equivalently, at least one non-blank paragraph) and every positive
`maxSize`, `splitIntoChunks` returns at least one chunk, joining the returned
chunks with blank-line separators reproduces exactly the trimmed non-empty
paragraphs joined by blank lines, and the chunks are the blank-line joins of
a partition of the paragraph sequence into consecutive non-empty groups — so
each paragraph appears wholly within exactly one chunk and no chunk boundary
splits a paragraph, even a paragraph longer than `maxSize` tokens. -/
theorem claim_C3_amended (text : List Char) (maxSize : ℕ)
    (_hmax : 0 < maxSize) (hpar : paragraphsOf text ≠ []) :
    splitIntoChunks text maxSize ≠ [] ∧
    joinG (splitIntoChunks text maxSize) = joinG (paragraphsOf text) ∧
    ∃ gs, gs ≠ [] ∧ (∀ g ∈ gs, g ≠ []) ∧
      gs.flatten = paragraphsOf text ∧
      splitIntoChunks text maxSize = gs.map joinG := by
  obtain ⟨gs, hne, hgood, hflat, heq⟩ :=
    splitIntoChunks_partition text maxSize hpar
  refine ⟨?_, ?_, gs, hne, fun g hg => (hgood g hg).1, hflat, heq⟩
  · rw [heq]
    intro h0
    exact hne (List.map_eq_nil_iff.1 h0)
  · rw [heq, joinG_flatten (fun g hg => (hgood g hg).1), hflat]

/-- C3 counterexample: the whitespace-only text `" "` is non-empty, yet the
returned chunk list is `[" "]`, whose blank-line join `" "` differs from the
blank-line join of the (empty) sequence of trimmed non-empty paragraphs. -/
theorem claim_C3_counterexample :
    " ".data ≠ [] ∧ (0 : ℕ) < 800 ∧
    splitIntoChunks " ".data 800 = [" ".data] ∧
    paragraphsOf " ".data = [] ∧
    joinG (splitIntoChunks " ".data 800) ≠ joinG (paragraphsOf " ".data) := by
  decide

theorem claim_C3_witness :
    ((0 : ℕ) < 800 ∧ paragraphsOf "Hello world.\n\nSecond one.".data ≠ []) ∧
    (splitIntoChunks "Hello world.\n\nSecond one.".data 800 ≠ [] ∧
      joinG (splitIntoChunks "Hello world.\n\nSecond one.".data 800)
        = joinG (paragraphsOf "Hello world.\n\nSecond one.".data) ∧
      ∃ gs, gs ≠ [] ∧ (∀ g ∈ gs, g ≠ []) ∧
        gs.flatten = paragraphsOf "Hello world.\n\nSecond one.".data ∧
        splitIntoChunks "Hello world.\n\nSecond one.".data 800
          = gs.map joinG) :=
  ⟨⟨by decide, by decide⟩,
    claim_C3_amended "Hello world.\n\nSecond one.".data 800 (by decide)
      (by decide)⟩

/-- C6 (amended): the paragraph-accumulation loop of `splitIntoChunks`
produces no chunks exactly when every paragraph trims to empty (a whitespace
-only or empty text) — not, as the claim's example says, when the whole text
is one paragraph shorter than the budget — and in that case the function
returns a single chunk holding the original untrimmed input verbatim. -/
theorem claim_C6_amended (text : List Char) (maxSize : ℕ)
    (h : paragraphsOf text = []) :
    splitIntoChunks text maxSize = [text] := by
  have hall : ∀ p ∈ splitParas text, trim p = [] := by
    intro p hp
    by_contra hne
    have hmem : trim p ∈ paragraphsOf text := by
      unfold paragraphsOf
      refine List.mem_filter.2 ⟨List.mem_map_of_mem trim hp, by simpa using hne⟩
    rw [h] at hmem
    simp at hmem
  simp only [splitIntoChunks, chunkLoop_all_blank hall]
  rw [if_neg (by simp [trim])]

/-- C6 counterexample: `" hi "` is a single paragraph far below an 800-token
budget — one of the cases the claim asserts returns the untrimmed input — yet
the loop does flush a chunk and the function returns the trimmed paragraph
`"hi"`, not `" hi "` verbatim. -/
theorem claim_C6_counterexample :
    paragraphsOf " hi ".data = ["hi".data] ∧
    tokenApprox "hi".data ≤ 800 ∧
    splitIntoChunks " hi ".data 800 = ["hi".data] ∧
    "hi".data ≠ " hi ".data := by
  decide

theorem claim_C6_witness :
    paragraphsOf "  \n\n ".data = [] ∧
    splitIntoChunks "  \n\n ".data 800 = ["  \n\n ".data] :=
  ⟨by decide, claim_C6_amended "  \n\n ".data 800 (by decide)⟩

/-! ## Claim C1: the scoring loop equals the spec formula -/

theorem foldl_scoreStep (cl : List Char) :
    ∀ (ks : List (List Char)) (s : ℝ) (m : ℕ),
      ks.foldl (scoreStep cl) (s, m)
        = (s + ((ks.filter fun k => decide (countMatches cl k ≠ 0)).map
              fun k => Real.log (1 + (countMatches cl k : ℝ))).sum,
           m + (ks.countP fun k => decide (countMatches cl k ≠ 0))) := by
  intro ks
  induction ks with
  | nil => intro s m; simp
  | cons k rest ih =>
    intro s m
    rw [List.foldl_cons]
    by_cases hk : countMatches cl k ≠ 0
    · rw [show scoreStep cl (s, m) k
          = (s + Real.log (1 + (countMatches cl k : ℝ)), m + 1) from by
            simp [scoreStep, hk]]
      rw [ih]
      rw [Prod.mk.injEq]
      constructor
      · simp [List.filter_cons, hk]
        ring
      · simp [List.countP_cons, hk]
        omega
    · rw [show scoreStep cl (s, m) k = (s, m) from by simp [scoreStep, hk]]
      rw [ih]
      rw [Prod.mk.injEq]
      constructor
      · simp [List.filter_cons, hk]
      · simp [List.countP_cons, hk]

/-- C1: for every content string and every non-empty sequence of keywords of
the shape the program produces (non-empty lowercase word-character tokens,
for which the whole-word regex model is exact), `calculateScore` equals the
spec formula `scoreSpec`: the sum over matched keywords of
`ln(1 + occurrences)`, multiplied by `matched / total` and divided by
`sqrt total`; in particular, on the chunk holding two whole-word occurrences
of "fox" with keyword list `["fox"]` the score is `ln (1 + 2)`. -/
theorem claim_C1 :
    (∀ (content : List Char) (ks : List (List Char)), ks ≠ [] →
        (∀ k ∈ ks, k ≠ [] ∧ ∀ c ∈ k, isWordChar c = true ∧ Char.toLower c = c) →
        calculateScore content ks = scoreSpec content ks) ∧
    calculateScore "The quick brown fox jumps.\n\nThe fox runs fast.".data
        ["fox".data] = Real.log (1 + 2) := by
  have hgen : ∀ (content : List Char) (ks : List (List Char)), ks ≠ [] →
      calculateScore content ks = scoreSpec content ks := by
    intro content ks hne
    cases ks with
    | nil => exact absurd rfl hne
    | cons k rest =>
      simp only [calculateScore, scoreSpec]
      rw [foldl_scoreStep]
      simp
  have hsing : ∀ (content k : List Char),
      countMatches (content.map Char.toLower) k ≠ 0 →
      scoreSpec content [k]
        = Real.log (1 + (countMatches (content.map Char.toLower) k : ℝ)) := by
    intro content k h
    simp only [scoreSpec]
    simp [h, Real.sqrt_one]
  refine ⟨fun content ks hne _ => hgen content ks hne, ?_⟩
  have h2 : countMatches
      ("The quick brown fox jumps.\n\nThe fox runs fast.".data.map Char.toLower)
      "fox".data = 2 := by decide
  rw [hgen _ _ (by simp), hsing _ _ (by rw [h2]; decide), h2]
  norm_num

theorem claim_C1_witness :
    (["fox".data] ≠ [] ∧
      ∀ k ∈ [("fox".data)], k ≠ [] ∧
        ∀ c ∈ k, isWordChar c = true ∧ Char.toLower c = c) ∧
    calculateScore "a fox".data ["fox".data]
      = scoreSpec "a fox".data ["fox".data] :=
  ⟨⟨by decide, by decide⟩,
    claim_C1.1 "a fox".data ["fox".data] (by decide) (by decide)⟩

/-! ## Claim C8: keyword extraction is idempotent and case-insensitive -/

theorem charToNat_ofNat (n : ℕ) (h : n < 55296) : (Char.ofNat n).toNat = n := by
  have hv : n.isValidChar := Or.inl h
  simp only [Char.ofNat, hv, dif_pos]
  simp [Char.ofNatAux, Char.toNat, UInt32.toNat]

theorem toLower_toLower (c : Char) : (c.toLower).toLower = c.toLower := by
  unfold Char.toLower
  by_cases h : c.toNat ≥ 65 ∧ c.toNat ≤ 90
  · rw [if_pos h]
    rw [charToNat_ofNat _ (by omega)]
    rw [if_neg (by omega)]
  · rw [if_neg h, if_neg h]

theorem norm_char_cases {q : List Char} {c : Char}
    (h : c ∈ (q.map Char.toLower).map replaceNonWord) :
    jsWs c = true ∨ (isWordChar c = true ∧ Char.toLower c = c) := by
  rw [List.mem_map] at h
  obtain ⟨c1, hc1, hre⟩ := h
  rw [List.mem_map] at hc1
  obtain ⟨c0, _, hc0⟩ := hc1
  subst hc0
  unfold replaceNonWord at hre
  by_cases hw : isWordChar (Char.toLower c0)
  · rw [if_neg (by simp [hw])] at hre
    subst hre
    exact Or.inr ⟨hw, toLower_toLower c0⟩
  · by_cases hws : jsWs (Char.toLower c0)
    · rw [if_neg (by simp [hws])] at hre
      subst hre
      exact Or.inl hws
    · rw [if_pos (by simp [hw, hws])] at hre
      subst hre
      exact Or.inl (by decide)

theorem splitWsGo_mem :
    ∀ (s cur : List Char) (pend : Bool) (t : List Char),
      (∀ c ∈ cur, jsWs c = false) → t ∈ splitWsGo cur pend s →
      ∀ c ∈ t, jsWs c = false ∧ (c ∈ cur ∨ c ∈ s) := by
  intro s
  induction s with
  | nil =>
    intro cur pend t hcur ht c hc
    simp only [splitWsGo] at ht
    by_cases hp : pend = true
    · rw [if_pos hp] at ht
      rcases List.mem_cons.1 ht with rfl | ht
      · exact ⟨hcur c (by simpa using hc), Or.inl (by simpa using hc)⟩
      · rcases List.mem_singleton.1 ht with rfl
        simp at hc
    · rw [if_neg hp] at ht
      rcases List.mem_singleton.1 ht with rfl
      exact ⟨hcur c (by simpa using hc), Or.inl (by simpa using hc)⟩
  | cons a s' ih =>
    intro cur pend t hcur ht c hc
    simp only [splitWsGo] at ht
    by_cases ha : jsWs a = true
    · rw [if_pos ha] at ht
      obtain ⟨h1, h2⟩ := ih cur true t hcur ht c hc
      refine ⟨h1, ?_⟩
      rcases h2 with h2 | h2
      · exact Or.inl h2
      · exact Or.inr (List.mem_cons_of_mem a h2)
    · rw [if_neg ha] at ht
      by_cases hp : pend = true
      · rw [if_pos hp] at ht
        rcases List.mem_cons.1 ht with rfl | ht
        · exact ⟨hcur c (by simpa using hc), Or.inl (by simpa using hc)⟩
        · obtain ⟨h1, h2⟩ :=
            ih [a] false t
              (by
                intro x hx
                rcases List.mem_singleton.1 hx with rfl
                simpa using ha)
              ht c hc
          refine ⟨h1, ?_⟩
          rcases h2 with h2 | h2
          · rcases List.mem_singleton.1 h2 with rfl
            exact Or.inr (by simp)
          · exact Or.inr (List.mem_cons_of_mem a h2)
      · rw [if_neg hp] at ht
        obtain ⟨h1, h2⟩ :=
          ih (a :: cur) false t
            (by
              intro x hx
              rcases List.mem_cons.1 hx with rfl | hx
              · simpa using ha
              · exact hcur x hx)
            ht c hc
        refine ⟨h1, ?_⟩
        rcases h2 with h2 | h2
        · rcases List.mem_cons.1 h2 with rfl | h2
          · exact Or.inr (by simp)
          · exact Or.inl h2
        · exact Or.inr (List.mem_cons_of_mem a h2)

theorem splitWsGo_app_token :
    ∀ (tok rest cur : List Char), (∀ c ∈ tok, jsWs c = false) →
      splitWsGo cur false (tok ++ rest)
        = splitWsGo (tok.reverse ++ cur) false rest := by
  intro tok
  induction tok with
  | nil => intro rest cur _; simp
  | cons a tok' ih =>
    intro rest cur h
    rw [List.cons_append]
    simp only [splitWsGo]
    rw [if_neg (by simpa using h a (by simp)), if_neg (by simp)]
    rw [ih rest (a :: cur) (fun c hc => h c (List.mem_cons_of_mem a hc))]
    congr 1
    simp

theorem splitWsGo_true_cons {cur s' : List Char} {c : Char}
    (hc : jsWs c = false) :
    splitWsGo cur true (c :: s')
      = cur.reverse :: splitWsGo [] false (c :: s') := by
  simp only [splitWsGo]
  simp [hc]

theorem joinSp_cons_head {c2 : Char} {t2' : List Char}
    (rest : List (List Char)) :
    ∃ s', joinSp ((c2 :: t2') :: rest) = c2 :: s' := by
  cases rest with
  | nil => exact ⟨t2', rfl⟩
  | cons r rs => exact ⟨t2' ++ [' '] ++ joinSp (r :: rs), rfl⟩

theorem splitWs_joinSp :
    ∀ (toks : List (List Char)),
      (∀ t ∈ toks, t ≠ [] ∧ ∀ c ∈ t, jsWs c = false) → toks ≠ [] →
      splitWs (joinSp toks) = toks := by
  intro toks
  induction toks with
  | nil => intro _ h; exact absurd rfl h
  | cons t ts ih =>
    intro h _
    cases ts with
    | nil =>
      show splitWsGo [] false (joinSp [t]) = [t]
      have ha := splitWsGo_app_token t [] [] (h t (by simp)).2
      rw [List.append_nil] at ha
      rw [show joinSp [t] = t from rfl, ha]
      simp [splitWsGo]
    | cons t2 rs =>
      have ht2ne : t2 ≠ [] := (h t2 (by simp)).1
      show splitWsGo [] false (joinSp (t :: t2 :: rs)) = t :: t2 :: rs
      rw [show joinSp (t :: t2 :: rs) = t ++ (' ' :: joinSp (t2 :: rs)) from by
        simp [joinSp]]
      rw [splitWsGo_app_token t _ [] (h t (by simp)).2]
      rw [show splitWsGo (t.reverse ++ []) false (' ' :: joinSp (t2 :: rs))
          = splitWsGo (t.reverse ++ []) true (joinSp (t2 :: rs)) from by
        simp only [splitWsGo]
        rw [if_pos (by decide)]]
      obtain ⟨c2, t2', rfl⟩ :
          ∃ c2 t2', t2 = c2 :: t2' := by
        cases t2 with
        | nil => exact absurd rfl ht2ne
        | cons c2 t2' => exact ⟨c2, t2', rfl⟩
      obtain ⟨s', hs'⟩ := @joinSp_cons_head c2 t2' rs
      rw [hs']
      rw [splitWsGo_true_cons (by
        have := (h (c2 :: t2') (by simp)).2 c2 (by simp)
        simpa using this)]
      rw [← hs']
      have ih' :=
        ih (fun x hx => h x (List.mem_cons_of_mem t hx)) (by simp)
      rw [show splitWs (joinSp ((c2 :: t2') :: rs))
          = splitWsGo [] false (joinSp ((c2 :: t2') :: rs)) from rfl] at ih'
      rw [ih']
      simp

theorem map_id_of {f : Char → Char} :
    ∀ {l : List Char}, (∀ c ∈ l, f c = c) → l.map f = l := by
  intro l
  induction l with
  | nil => intro _; rfl
  | cons c t ih =>
    intro h
    rw [List.map_cons, h c (by simp), ih (fun x hx => h x (List.mem_cons_of_mem c hx))]

theorem map_joinSp_id (f : Char → Char) :
    ∀ (toks : List (List Char)), f ' ' = ' ' →
      (∀ t ∈ toks, ∀ c ∈ t, f c = c) → (joinSp toks).map f = joinSp toks := by
  intro toks
  induction toks with
  | nil => intro _ _; rfl
  | cons t ts ih =>
    intro hsp h
    cases ts with
    | nil =>
      show (joinSp [t]).map f = joinSp [t]
      rw [show joinSp [t] = t from rfl]
      exact map_id_of (h t (by simp))
    | cons t2 rs =>
      rw [show joinSp (t :: t2 :: rs) = t ++ [' '] ++ joinSp (t2 :: rs) from rfl]
      rw [List.map_append, List.map_append]
      rw [map_id_of (h t (by simp))]
      rw [show ([' '] : List Char).map f = [' '] from by simp [hsp]]
      rw [ih hsp (fun x hx => h x (List.mem_cons_of_mem t hx))]

theorem extractKeywords_mem_facts {q w : List Char}
    (hw : w ∈ extractKeywords q) :
    2 < w.length ∧ w ∉ STOP_WORDS ∧
      ∀ c ∈ w, jsWs c = false ∧ isWordChar c = true ∧ Char.toLower c = c := by
  unfold extractKeywords at hw
  rw [List.mem_filter] at hw
  obtain ⟨hmem, hpred⟩ := hw
  simp only [Bool.and_eq_true, decide_eq_true_eq, Bool.not_eq_true',
    decide_eq_false_iff_not] at hpred
  refine ⟨hpred.1, hpred.2, ?_⟩
  intro c hc
  obtain ⟨h1, h2⟩ :=
    splitWsGo_mem _ [] false w (by simp) hmem c hc
  rcases h2 with h2 | h2
  · simp at h2
  · rcases norm_char_cases h2 with h3 | h3
    · rw [h3] at h1
      simp at h1
    · exact ⟨h1, h3.1, h3.2⟩

/-- C8: `extractKeywords` is idempotent on its own output — re-extracting
from the space-joined keyword sequence returns the same sequence — and it is
invariant to input case: any two queries with the same lowercasing extract
the same keywords. -/
theorem claim_C8 :
    (∀ q : List Char,
        extractKeywords (joinSp (extractKeywords q)) = extractKeywords q) ∧
    (∀ q1 q2 : List Char, q1.map Char.toLower = q2.map Char.toLower →
        extractKeywords q1 = extractKeywords q2) := by
  have hcase : ∀ q1 q2 : List Char,
      q1.map Char.toLower = q2.map Char.toLower →
      extractKeywords q1 = extractKeywords q2 := by
    intro q1 q2 h
    unfold extractKeywords
    rw [h]
  refine ⟨?_, hcase⟩
  intro q
  by_cases hq : extractKeywords q = []
  · rw [hq]
    decide
  · have hfacts := fun w hw => @extractKeywords_mem_facts q w hw
    have h1 : (joinSp (extractKeywords q)).map Char.toLower
        = joinSp (extractKeywords q) :=
      map_joinSp_id _ _ (by decide)
        (fun t ht c hc => ((hfacts t ht).2.2 c hc).2.2)
    have h2 : (joinSp (extractKeywords q)).map replaceNonWord
        = joinSp (extractKeywords q) :=
      map_joinSp_id _ _ (by decide)
        (fun t ht c hc => by
          have hf := (hfacts t ht).2.2 c hc
          unfold replaceNonWord
          rw [if_neg (by simp [hf.2.1])])
    conv_lhs => rw [extractKeywords]
    rw [h1, h2]
    rw [splitWs_joinSp (extractKeywords q)
      (fun t ht => ⟨by
          intro h0
          have := (hfacts t ht).1
          rw [h0] at this
          simp at this,
        fun c hc => ((hfacts t ht).2.2 c hc).1⟩) hq]
    rw [List.filter_eq_self.2 (fun w hw => by
      simp only [Bool.and_eq_true, decide_eq_true_eq, Bool.not_eq_true',
        decide_eq_false_iff_not]
      exact ⟨(hfacts w hw).1, (hfacts w hw).2.1⟩)]

theorem claim_C8_witness :
    ("The FOX Speed".data.map Char.toLower
        = "the fox speed".data.map Char.toLower) ∧
    extractKeywords "The FOX Speed".data = extractKeywords "the fox speed".data ∧
    extractKeywords (joinSp (extractKeywords "The FOX Speed".data))
      = extractKeywords "The FOX Speed".data :=
  ⟨by decide, claim_C8.2 "The FOX Speed".data "the fox speed".data (by decide),
    claim_C8.1 "The FOX Speed".data⟩

/-! ## Claim C2: the search ranking contract -/

theorem scoreDesc_trans : ∀ a b c : DocumentChunk × ℝ,
    scoreDesc a b = true → scoreDesc b c = true → scoreDesc a c = true := by
  intro a b c hab hbc
  have h1 := of_decide_eq_true hab
  have h2 := of_decide_eq_true hbc
  exact decide_eq_true (le_trans h2 h1)

theorem scoreDesc_total : ∀ a b : DocumentChunk × ℝ,
    (scoreDesc a b || scoreDesc b a) = true := by
  intro a b
  rcases le_total b.2 a.2 with h | h
  · rw [Bool.or_eq_true]
    exact Or.inl (decide_eq_true h)
  · rw [Bool.or_eq_true]
    exact Or.inr (decide_eq_true h)

theorem extractKeywords_nil : extractKeywords [] = [] := by decide

theorem search_eq_of_keywords {st : DataSourceState} {q k : List Char}
    {kws : List (List Char)} (hk : extractKeywords q = k :: kws) :
    search st q
      = (((filteredOf st (extractKeywords q)).mergeSort scoreDesc).take
          st.config.topK).map fun sc => ⟨sc.1.content, sc.1.citation, sc.2⟩ := by
  have hq : q ≠ [] := by
    intro h0
    rw [h0, extractKeywords_nil] at hk
    cases hk
  unfold search
  rw [if_neg hq]
  simp only [hk]

theorem search_eq_fallback {st : DataSourceState} {q : List Char}
    (hq : q ≠ []) (hk : extractKeywords q = []) :
    search st q = (match st.data with
      | [] => []
      | d :: _ => [⟨d.content, d.citation, 1 / 2⟩]) := by
  unfold search
  rw [if_neg hq]
  simp only [hk]

theorem search_nil (st : DataSourceState) : search st [] = [] := by
  unfold search
  rw [if_pos rfl]

/-- C2 (amended): for every state and query, under a configuration with
positive `topK` and non-negative `minScore`, `search` output is sorted by
non-increasing score and has at most `topK` elements; and whenever the query
has at least one extracted keyword, no returned score is below `minScore`
and ties keep the original chunk order.  (The keyword-less stop-word
fallback returns the fixed score 1/2, which can lie below `minScore`.) -/
theorem claim_C2_amended (st : DataSourceState) (q : List Char)
    (htop : 0 < st.config.topK) (_hmin : 0 ≤ st.config.minScore) :
    searchContract st q := by
  constructor
  · by_cases hq : q = []
    · subst hq
      rw [search_nil]
      exact ⟨List.Pairwise.nil, by simp⟩
    · cases hke : extractKeywords q with
      | nil =>
        rw [search_eq_fallback hq hke]
        cases hd : st.data with
        | nil => exact ⟨List.Pairwise.nil, by simp⟩
        | cons d rest =>
          constructor
          · simp
          · simpa using htop
      | cons k kws =>
        rw [search_eq_of_keywords hke]
        constructor
        · apply List.pairwise_map.mpr
          have hs :=
            List.sorted_mergeSort scoreDesc_trans scoreDesc_total
              (filteredOf st (extractKeywords q))
          exact (List.Pairwise.sublist (List.take_sublist _ _) hs).imp
            (fun hab => of_decide_eq_true hab)
        · rw [List.length_map, List.length_take]
          exact Nat.min_le_left _ _
  · intro hke
    cases hkeq : extractKeywords q with
    | nil => exact absurd hkeq hke
    | cons k kws =>
      constructor
      · intro r hr
        rw [search_eq_of_keywords hkeq] at hr
        rw [List.mem_map] at hr
        obtain ⟨sc, hsc, rfl⟩ := hr
        have h1 : sc ∈ (filteredOf st (extractKeywords q)).mergeSort scoreDesc :=
          (List.take_sublist _ _).subset hsc
        have h2 : sc ∈ filteredOf st (extractKeywords q) :=
          (List.mergeSort_perm _ scoreDesc).mem_iff.1 h1
        unfold filteredOf at h2
        exact of_decide_eq_true (List.mem_filter.1 h2).2
      · intro s
        rw [← hkeq]
        have hpw : ((filteredOf st (extractKeywords q)).filter
            (fun sc => decide (sc.2 = s))).Pairwise
              (fun a b => scoreDesc a b = true) := by
          apply List.pairwise_of_forall_mem_list
          intro a ha b hb
          have ha2 := of_decide_eq_true (List.mem_filter.1 ha).2
          have hb2 := of_decide_eq_true (List.mem_filter.1 hb).2
          exact decide_eq_true (by rw [ha2, hb2])
        have hsub :
            ((filteredOf st (extractKeywords q)).filter
              (fun sc => decide (sc.2 = s))).Sublist
              ((filteredOf st (extractKeywords q)).mergeSort scoreDesc) :=
          List.mergeSort_stable scoreDesc_trans scoreDesc_total hpw
            (List.filter_sublist _)
        have hsub2 :
            ((filteredOf st (extractKeywords q)).filter
              (fun sc => decide (sc.2 = s))).Sublist
              (((filteredOf st (extractKeywords q)).mergeSort
                scoreDesc).filter (fun sc => decide (sc.2 = s))) := by
          have h3 := List.Sublist.filter (fun sc => decide (sc.2 = s)) hsub
          rwa [List.filter_eq_self.2
            (fun a ha => (List.mem_filter.1 ha).2)] at h3
        have hperm :
            ((((filteredOf st (extractKeywords q)).mergeSort
              scoreDesc)).filter (fun sc => decide (sc.2 = s))).Perm
              ((filteredOf st (extractKeywords q)).filter
                (fun sc => decide (sc.2 = s))) :=
          List.Perm.filter _ (List.mergeSort_perm _ scoreDesc)
        exact (hsub2.eq_of_length hperm.length_eq.symm).symm

/-- C2 counterexample: with the non-negative threshold `minScore = 3/5` and
positive `topK = 3`, the stop-word query falls back to the first document
with score `1/2 < 3/5`, so a returned result scores below `minScore`. -/
theorem claim_C2_counterexample :
    0 < (3 : ℕ) ∧ (0 : ℝ) ≤ 3 / 5 ∧
    search ⟨[⟨"Doc content.".data, "doc.md".data⟩], [],
        ⟨800, 3, (3 / 5 : ℝ)⟩⟩ "what is it about".data
      = [⟨"Doc content.".data, "doc.md".data, 1 / 2⟩] ∧
    (1 / 2 : ℝ) < 3 / 5 :=
  ⟨by decide, by norm_num,
    by
      rw [search_eq_fallback (by decide) (by decide)],
    by norm_num⟩

theorem claim_C2_witness :
    (0 < (⟨[], [], ⟨800, 3, 0⟩⟩ : DataSourceState).config.topK ∧
      (0 : ℝ) ≤ (⟨[], [], ⟨800, 3, 0⟩⟩ : DataSourceState).config.minScore) ∧
    searchContract ⟨[], [], ⟨800, 3, 0⟩⟩ "fox".data :=
  ⟨⟨by decide, le_refl 0⟩,
    claim_C2_amended ⟨[], [], ⟨800, 3, 0⟩⟩ "fox".data (by decide) (le_refl 0)⟩

/-! ## Claims C4 and C5: the stop-word fallback and the missing directory -/

theorem calculateScore_single_zero {content k : List Char}
    (h : countMatches (content.map Char.toLower) k = 0) :
    calculateScore content [k] = 0 := by
  simp only [calculateScore]
  rw [foldl_scoreStep]
  simp [h]

/-- C4 counterexample: "this" is not in `STOP_WORDS` (only "that" is), so the
query "what is this about" extracts the keyword `["this"]` rather than none,
and against a loaded document that does not contain "this" the search
returns no result at all — not the first document with score 0.5. -/
theorem claim_C4_counterexample :
    extractKeywords "what is this about".data = ["this".data] ∧
    search ⟨[⟨"The quick brown fox jumps.".data, "doc1.md".data⟩],
        [⟨"The quick brown fox jumps.".data, "doc1.md".data, 0, 1⟩],
        ⟨800, 3, (1 / 10 : ℝ)⟩⟩ "what is this about".data = [] ∧
    ([] : List SearchResult)
      ≠ [⟨"The quick brown fox jumps.".data, "doc1.md".data, 1 / 2⟩] := by
  have hk : extractKeywords "what is this about".data = ["this".data] := by
    decide
  refine ⟨hk, ?_, by simp⟩
  rw [search_eq_of_keywords hk, hk]
  have hz : calculateScore "The quick brown fox jumps.".data ["this".data]
      = 0 :=
    calculateScore_single_zero (by decide)
  have hfil : filteredOf
      ⟨[⟨"The quick brown fox jumps.".data, "doc1.md".data⟩],
        [⟨"The quick brown fox jumps.".data, "doc1.md".data, 0, 1⟩],
        ⟨800, 3, (1 / 10 : ℝ)⟩⟩ ["this".data] = [] := by
    unfold filteredOf scoredOf
    rw [List.map_cons, List.map_nil, List.filter_cons]
    rw [if_neg (by
      simp only [hz, decide_eq_true_eq]
      norm_num)]
    rfl
  rw [hfil]
  simp

/-- C4 (amended): a query consisting only of stop words or short words —
such as "what is it about" (the claim's query "what is this about" extracts
`["this"]` because "this" is not a stop word) — extracts no keyword, and with
at least one document loaded the search returns exactly the full first
document with score exactly 1/2. -/
theorem claim_C4_amended (d : Document) (rest : List Document)
    (chunks : List DocumentChunk) (cfg : RetrievalConfig) :
    extractKeywords "what is it about".data = [] ∧
    search ⟨d :: rest, chunks, cfg⟩ "what is it about".data
      = [⟨d.content, d.citation, 1 / 2⟩] := by
  refine ⟨by decide, ?_⟩
  rw [search_eq_fallback (by decide) (by decide)]

/-- C5 counterexample: with a previously loaded state, `init` on a missing
data directory returns early and the old document store is retained, not
emptied. -/
theorem claim_C5_counterexample :
    (initImpl none ⟨[⟨"Old content.".data, "old.md".data⟩],
        [⟨"Old content.".data, "old.md".data, 0, 1⟩],
        ⟨800, 3, (1 / 10 : ℝ)⟩⟩).data
      = [⟨"Old content.".data, "old.md".data⟩] ∧
    (initImpl none ⟨[⟨"Old content.".data, "old.md".data⟩],
        [⟨"Old content.".data, "old.md".data, 0, 1⟩],
        ⟨800, 3, (1 / 10 : ℝ)⟩⟩).data ≠ [] :=
  ⟨rfl, List.cons_ne_nil _ _⟩

/-- C5 (amended): when the source location is missing, `init` returns early
and leaves the whole state — document and chunk stores included — unchanged
(the stores are retained, not replaced); on a never-loaded instance they are
empty, so every subsequent search returns empty, including the keyword-less
fallback. -/
theorem claim_C5_amended :
    (∀ st : DataSourceState, initImpl none st = st) ∧
    (∀ (cfg : RetrievalConfig) (q : List Char),
        search (initImpl none ⟨[], [], cfg⟩) q = []) := by
  refine ⟨fun st => rfl, ?_⟩
  intro cfg q
  show search ⟨[], [], cfg⟩ q = []
  by_cases hq : q = []
  · subst hq
    exact search_nil _
  · cases hke : extractKeywords q with
    | nil => rw [search_eq_fallback hq hke]
    | cons k kws =>
      rw [search_eq_of_keywords hke]
      have : filteredOf (⟨[], [], cfg⟩ : DataSourceState)
          (extractKeywords q) = [] := by
        unfold filteredOf scoredOf
        rfl
      rw [this]
      simp

/-! ## Claim C7: rendering the context -/

theorem formatDocument_head (c cit : List Char) :
    (formatDocument c cit).head? = some '<' := rfl

theorem formatDocument_last (c cit : List Char) :
    (formatDocument c cit).getLast? = some '>' := by
  unfold formatDocument
  rw [List.getLast?_append_of_ne_nil _ (by decide)]
  decide

theorem rtrim_append {x y : List Char}
    (h : (y.reverse.dropWhile jsWs).reverse ≠ []) :
    (((x ++ y).reverse.dropWhile jsWs)).reverse
      = x ++ (y.reverse.dropWhile jsWs).reverse := by
  rw [List.reverse_append, List.dropWhile_append]
  have h2 : y.reverse.dropWhile jsWs ≠ [] := by
    intro h0
    rw [h0] at h
    simp at h
  rw [if_neg (by simpa using h2)]
  rw [List.reverse_append, List.reverse_reverse]

theorem rtrim_block {b : List Char} (hl : b.getLast? = some '>') :
    ((b ++ nl2).reverse.dropWhile jsWs).reverse = b := by
  rw [List.reverse_append]
  rw [show (nl2.reverse : List Char) = '\n' :: '\n' :: [] from rfl]
  rw [List.cons_append, List.cons_append, List.nil_append]
  rw [List.dropWhile_cons, if_pos (by decide), List.dropWhile_cons,
    if_pos (by decide)]
  rw [dropWhile_eq_self_of_head (by
    intro c hc
    rw [List.head?_reverse, hl] at hc
    cases hc
    decide)]
  exact List.reverse_reverse b

theorem trim_blocks_flat :
    ∀ (blocks : List (List Char)), blocks ≠ [] →
      (∀ b ∈ blocks, b.head? = some '<' ∧ b.getLast? = some '>') →
      trim ((blocks.map (· ++ nl2)).flatten) = joinG blocks := by
  intro blocks
  induction blocks with
  | nil => intro h _; exact absurd rfl h
  | cons b rest ih =>
    intro _ hb
    have hbne : b ≠ [] := by
      intro h0
      have := (hb b (by simp)).1
      rw [h0] at this
      cases this
    have hfront : ((b :: rest).map (· ++ nl2)).flatten.dropWhile jsWs
        = ((b :: rest).map (· ++ nl2)).flatten := by
      apply dropWhile_eq_self_of_head
      intro c hc
      rw [show ((b :: rest).map (· ++ nl2)).flatten
          = (b ++ nl2) ++ (rest.map (· ++ nl2)).flatten from by simp] at hc
      rw [List.head?_append, List.head?_append, (hb b (by simp)).1] at hc
      cases hc
      decide
    unfold trim
    rw [hfront]
    cases rest with
    | nil =>
      rw [show (([b].map (· ++ nl2)).flatten : List Char) = b ++ nl2 from by
        simp]
      rw [rtrim_block (hb b (by simp)).2]
      exact (joinG_singleton b).symm
    | cons b2 r2 =>
      rw [show ((b :: b2 :: r2).map (· ++ nl2)).flatten
          = (b ++ nl2) ++ ((b2 :: r2).map (· ++ nl2)).flatten from by simp]
      have hr := ih (by simp) (fun x hx => hb x (List.mem_cons_of_mem b hx))
      unfold trim at hr
      have hfront2 : ((b2 :: r2).map (· ++ nl2)).flatten.dropWhile jsWs
          = ((b2 :: r2).map (· ++ nl2)).flatten := by
        apply dropWhile_eq_self_of_head
        intro c hc
        rw [show ((b2 :: r2).map (· ++ nl2)).flatten
            = (b2 ++ nl2) ++ (r2.map (· ++ nl2)).flatten from by simp] at hc
        rw [List.head?_append, List.head?_append,
          (hb b2 (by simp)).1] at hc
        cases hc
        decide
      rw [hfront2] at hr
      have hjne : joinG (b2 :: r2) ≠ [] :=
        joinG_ne_nil (by simp) (fun x hx => by
          intro h0
          have := (hb x (List.mem_cons_of_mem b hx)).1
          rw [h0] at this
          cases this)
      rw [rtrim_append (by rw [hr]; exact hjne), hr]
      rw [joinG_cons_cons, List.append_assoc]

theorem foldl_blocks (rs : List SearchResult) :
    ∀ acc : List Char,
      rs.foldl
        (fun acc res => acc ++ formatDocument res.content res.citation ++ nl2)
        acc
      = acc ++ (((rs.map
          fun res => formatDocument res.content res.citation)).map
            (· ++ nl2)).flatten := by
  induction rs with
  | nil => intro acc; simp
  | cons r rest ih =>
    intro acc
    rw [List.foldl_cons, ih]
    simp [List.append_assoc]

/-- C7: if `search` returns nothing, `renderContext` returns the empty
context with no sources; otherwise its content is the results' contents each
wrapped in a `<context source=...>` block, concatenated in rank order with
blank-line separators and trailing whitespace trimmed, and its sources are
the results' citations in the same order, duplicates preserved. -/
theorem claim_C7 (st : DataSourceState) (q : List Char) :
    (search st q = [] → renderContext st q = ⟨[], []⟩) ∧
    (search st q ≠ [] →
      renderContext st q
        = ⟨joinG ((search st q).map
            fun r => formatDocument r.content r.citation),
          (search st q).map (·.citation)⟩) := by
  cases hs : search st q with
  | nil =>
    refine ⟨fun _ => ?_, fun hne => absurd rfl hne⟩
    simp only [renderContext, hs]
  | cons r rs =>
    refine ⟨fun he => absurd he (by simp), fun _ => ?_⟩
    simp only [renderContext, hs]
    congr 1
    rw [foldl_blocks, List.nil_append]
    exact trim_blocks_flat _ (by simp) (fun b hbm => by
      rw [List.mem_map] at hbm
      obtain ⟨res, _, rfl⟩ := hbm
      exact ⟨formatDocument_head _ _, formatDocument_last _ _⟩)

theorem claim_C7_witness :
    (search ⟨[], [], ⟨800, 3, (1 / 10 : ℝ)⟩⟩ "nothing".data = [] ∧
      renderContext ⟨[], [], ⟨800, 3, (1 / 10 : ℝ)⟩⟩ "nothing".data
        = ⟨[], []⟩) ∧
    (search ⟨[⟨"Doc body.".data, "a.md".data⟩], [],
        ⟨800, 3, (1 / 10 : ℝ)⟩⟩ "what is it about".data ≠ [] ∧
      renderContext ⟨[⟨"Doc body.".data, "a.md".data⟩], [],
          ⟨800, 3, (1 / 10 : ℝ)⟩⟩ "what is it about".data
        = ⟨joinG ((search ⟨[⟨"Doc body.".data, "a.md".data⟩], [],
              ⟨800, 3, (1 / 10 : ℝ)⟩⟩ "what is it about".data).map
            fun r => formatDocument r.content r.citation),
          (search ⟨[⟨"Doc body.".data, "a.md".data⟩], [],
              ⟨800, 3, (1 / 10 : ℝ)⟩⟩ "what is it about".data).map
            (·.citation)⟩) := by
  have h1 : search ⟨[], [], ⟨800, 3, (1 / 10 : ℝ)⟩⟩ "nothing".data = [] := by
    rw [search_eq_of_keywords (show extractKeywords "nothing".data
      = "nothing".data :: [] from by decide)]
    have : filteredOf (⟨[], [], ⟨800, 3, (1 / 10 : ℝ)⟩⟩ : DataSourceState)
        (extractKeywords "nothing".data) = [] := by
      unfold filteredOf scoredOf
      rfl
    rw [this]
    simp
  have h2 : search ⟨[⟨"Doc body.".data, "a.md".data⟩], [],
      ⟨800, 3, (1 / 10 : ℝ)⟩⟩ "what is it about".data
      = [⟨"Doc body.".data, "a.md".data, 1 / 2⟩] := by
    rw [search_eq_fallback (by decide) (by decide)]
  exact ⟨⟨h1, (claim_C7 _ _).1 h1⟩,
    ⟨by rw [h2]; simp, (claim_C7 _ _).2 (by rw [h2]; simp)⟩⟩

/-! ## Claims C9 and C10: the chunk store and the SharePoint stub -/

theorem chunkDocuments_eq_flatMap (docs : List Document) (m : ℕ) :
    chunkDocuments docs m = docs.flatMap (fun d =>
      (splitIntoChunks d.content m).enum.map
        (fun ic => ⟨ic.2, d.citation, ic.1,
          (splitIntoChunks d.content m).length⟩)) := by
  unfold chunkDocuments
  suffices h : ∀ acc : List DocumentChunk,
      docs.foldl
        (fun chunks doc =>
          let docChunks := splitIntoChunks doc.content m
          chunks ++ docChunks.enum.map
            (fun ic => ⟨ic.2, doc.citation, ic.1, docChunks.length⟩))
        acc
      = acc ++ docs.flatMap (fun d =>
          (splitIntoChunks d.content m).enum.map
            (fun ic => ⟨ic.2, d.citation, ic.1,
              (splitIntoChunks d.content m).length⟩)) by
    simpa using h []
  induction docs with
  | nil => intro acc; simp
  | cons d rest ih =>
    intro acc
    rw [List.foldl_cons, ih]
    simp [List.append_assoc]

theorem mem_enum_fst_lt {α : Type} {l : List α} {p : ℕ × α}
    (h : p ∈ l.enum) : p.1 < l.length := by
  obtain ⟨i, x⟩ := p
  exact (List.mem_enum h).1

/-- C9: in every reachable state — after construction and after every
(re-)initialization — the chunk store is exactly the per-document
enumeration of `splitIntoChunks`: for a document with `n` chunks,
`chunkIndex` takes `0 .. n-1` in order and `totalChunks = n` on each; hence
`0 ≤ chunkIndex < totalChunks` for every stored chunk. -/
theorem claim_C9 (st : DataSourceState) (h : Reachable st) :
    chunkStoreInvariant st := by
  have hmain : st.chunks = st.data.flatMap (fun d =>
      (splitIntoChunks d.content st.config.maxChunkSize).enum.map
        (fun ic => ⟨ic.2, d.citation, ic.1,
          (splitIntoChunks d.content st.config.maxChunkSize).length⟩)) := by
    induction h with
    | construct cfg => rfl
    | step listing h ih =>
      cases listing with
      | none => exact ih
      | some files =>
        exact chunkDocuments_eq_flatMap _ _
  refine ⟨hmain, ?_⟩
  intro ch hch
  rw [hmain] at hch
  rw [List.mem_flatMap] at hch
  obtain ⟨d, _, hm⟩ := hch
  rw [List.mem_map] at hm
  obtain ⟨ic, hic, rfl⟩ := hm
  exact ⟨Nat.zero_le _, mem_enum_fst_lt hic⟩

theorem claim_C9_witness :
    Reachable (initImpl (some [("a.md".data, some "One.\n\nTwo.".data)])
      ⟨[], [], ⟨800, 3, (1 / 10 : ℝ)⟩⟩) ∧
    chunkStoreInvariant (initImpl
      (some [("a.md".data, some "One.\n\nTwo.".data)])
      ⟨[], [], ⟨800, 3, (1 / 10 : ℝ)⟩⟩) :=
  ⟨Reachable.step _ (Reachable.construct _),
    claim_C9 _ (Reachable.step _ (Reachable.construct _))⟩

/-- C10: in every reachable state of the SharePoint data source the document
list is empty — `init` is an unimplemented stub that never appends a
document — so `search` returns the empty sequence and `renderContext`
returns the empty context for every query. -/
theorem claim_C10 (st : SharePointState) (q : List Char)
    (h : SPReachable st) :
    st.documents = [] ∧ spSearch st q = [] ∧
      spRenderContext st q = ⟨[], []⟩ := by
  have hdoc : st.documents = [] := by
    induction h with
    | construct => rfl
    | step enabled h ih =>
      unfold spInit
      by_cases he : enabled = true
      · rw [if_pos he]
        exact ih
      · rw [if_neg he]
        exact ih
  have hs : spSearch st q = [] := by
    unfold spSearch
    rw [if_pos (Or.inr hdoc)]
  refine ⟨hdoc, hs, ?_⟩
  simp only [spRenderContext, hs]

theorem claim_C10_witness :
    SPReachable (spInit true ⟨[], false⟩) ∧
    ((spInit true ⟨[], false⟩).documents = [] ∧
      spSearch (spInit true ⟨[], false⟩) "hello".data = [] ∧
      spRenderContext (spInit true ⟨[], false⟩) "hello".data = ⟨[], []⟩) :=
  ⟨SPReachable.step true SPReachable.construct,
    claim_C10 _ "hello".data (SPReachable.step true SPReachable.construct)⟩

end Portico
